import Mathlib

/-
Shallow embedding of the VanillaBondPricer bond valuation engine
(src/app/Bond.py) over the rational numbers.

Conventions of the embedding:
* Python floats are modelled as exact rationals (ℚ); real-number semantics
  of the formulas is what the spec describes.
* Fallible operations return Option: a raised exception (ValueError,
  IndexError, or a solver failure propagated out of compute_ytm) is none.
* In the source, every discount exponent is the float product
  coupon_frequency * time_periods[i]; since time_periods[i] = (i+1) /
  coupon_frequency, that product is exactly the natural number i+1
  (lemma coupon_frequency_mul_time below), so powers are taken with
  natural-number exponents here.
* scipy.optimize.root_scalar (method brentq) is an external library
  routine.  Modelled from the spec: the Yield Solver contract of the spec says
  any bracketed root-finding method with equivalent convergence reporting
  (e.g. bisection) satisfies the contract — converged result within the
  bracket, failure (no best-effort value) when the bracket has no sign
  change or the iteration budget is exhausted before the bracket shrinks
  below the tolerance.  root_scalar/bisect below implement exactly that.
-/

/-- A vanilla coupon-bearing bond, the four constructor fields of
Bond.__init__: face value, annual coupon rate (decimal), maturity in
years, coupon payments per year (typed int in the source). -/
structure Bond where
  face_value : ℚ
  coupon_rate : ℚ
  maturity : ℚ
  coupon_frequency : ℤ
  deriving DecidableEq

/-- Python int() applied to an exact rational: truncation toward zero. -/
def ratTrunc (x : ℚ) : ℤ := if 0 ≤ x then ⌊x⌋ else ⌈x⌉

/-- Bond.__init__: raises ValueError (coupon frequency must be a positive
integer) when coupon_frequency <= 0, otherwise stores the four fields. -/
def mkBond (face_value coupon_rate maturity : ℚ) (coupon_frequency : ℤ) :
    Option Bond :=
  if coupon_frequency ≤ 0 then none
  else some ⟨face_value, coupon_rate, maturity, coupon_frequency⟩

/-- Derived attribute self.periods = int(maturity * coupon_frequency). -/
def Bond.periods (b : Bond) : ℤ := ratTrunc (b.maturity * b.coupon_frequency)

/-- Derived attribute self.coupon = face_value * coupon_rate / coupon_frequency. -/
def Bond.coupon (b : Bond) : ℚ :=
  b.face_value * b.coupon_rate / (b.coupon_frequency : ℚ)

/-- flows[-1] += x on a list of cash flows: fails (IndexError) on the
empty list, otherwise adds x to the last element. -/
def addToLast (x : ℚ) : List ℚ → Option (List ℚ)
  | [] => none
  | [a] => some [a + x]
  | a :: d :: rest => (addToLast x (d :: rest)).map (fun l => a :: l)

/-- Bond.cash_flows: flows = np.full(periods, coupon); flows[-1] +=
face_value.  np.full fails for a negative length, and the final-element
update fails when periods = 0, so the whole call fails unless
periods >= 1. -/
def Bond.cash_flows (b : Bond) : Option (List ℚ) :=
  if 0 ≤ b.periods then
    addToLast b.face_value (List.replicate b.periods.toNat b.coupon)
  else none

/-- Bond.time_periods: np.arange(1, periods + 1) / coupon_frequency, the
time in years of each cash flow. -/
def Bond.time_periods (b : Bond) : List ℚ :=
  (List.range b.periods.toNat).map (fun i => ((i : ℚ) + 1) / (b.coupon_frequency : ℚ))

/-- The discount factor 1 / (1 + yield_rate / coupon_frequency) **
(coupon_frequency * time_periods[i]) of Bond.price; the exponent is the
exact natural number i+1 (lemma coupon_frequency_mul_time). -/
def discountFactor (b : Bond) (y : ℚ) (i : ℕ) : ℚ :=
  1 / (1 + y / (b.coupon_frequency : ℚ)) ^ (i + 1)

/-- np.sum(cf * discount_factors), the present-value sum at the heart of
Bond.price, for a given cash-flow list. -/
def pvSum (b : Bond) (y : ℚ) (cf : List ℚ) : ℚ :=
  ∑ i in Finset.range b.periods.toNat, cf.getD i 0 * discountFactor b y i

/-- Bond.price: present value of the cash flows under a flat yield;
fails iff cash_flows fails. -/
def Bond.price (b : Bond) (y : ℚ) : Option ℚ :=
  b.cash_flows.map (pvSum b y)

/-- np.sum(weighted_times) with weighted_times = t * cf * discount_factors,
the numerator of Bond.macaulay_duration. -/
def wtSum (b : Bond) (y : ℚ) (cf : List ℚ) : ℚ :=
  ∑ i in Finset.range b.periods.toNat,
    ((i : ℚ) + 1) / (b.coupon_frequency : ℚ) * cf.getD i 0 * discountFactor b y i

/-- Bond.macaulay_duration: sum(t * cf * d) / sum(cf * d). -/
def Bond.macaulay_duration (b : Bond) (y : ℚ) : Option ℚ :=
  b.cash_flows.map (fun cf => wtSum b y cf / pvSum b y cf)

/-- Bond.modified_duration: macaulay / (1 + yield_rate / coupon_frequency). -/
def Bond.modified_duration (b : Bond) (y : ℚ) : Option ℚ :=
  (b.macaulay_duration y).map (fun d => d / (1 + y / (b.coupon_frequency : ℚ)))

/-- Bond.convexity: with periods = np.arange(1, periods+1) (index i+1 here
for i in range periods), price_adjusted = sum(cf[i] / (1+y/m)^(i+1)) and
convexity_sum = sum((i+1)(i+2) cf[i] / (1+y/m)^(i+3)); the result is
convexity_sum / (price_adjusted * coupon_frequency^2). -/
def Bond.convexity (b : Bond) (y : ℚ) : Option ℚ :=
  b.cash_flows.map (fun cf =>
    (∑ i in Finset.range b.periods.toNat,
        ((i : ℚ) + 1) * ((i : ℚ) + 2) * cf.getD i 0 /
          (1 + y / (b.coupon_frequency : ℚ)) ^ (i + 3)) /
      ((∑ i in Finset.range b.periods.toNat,
          cf.getD i 0 / (1 + y / (b.coupon_frequency : ℚ)) ^ (i + 1)) *
        (b.coupon_frequency : ℚ) ^ 2))

/-- Modelled from the spec: the iteration loop of the external bracketed
root finder (scipy.optimize.root_scalar, method brentq, missing from
src/).  Per the Yield Solver contract of the spec, a bisection with the same
convergence reporting satisfies the contract: halve the bracket keeping
the sign change, succeed with the midpoint once the bracket is narrower
than the tolerance, fail (none) when the iteration budget runs out. -/
def bisect (f : ℚ → ℚ) (tol : ℚ) : ℚ → ℚ → ℕ → Option ℚ
  | _, _, 0 => none
  | lo, hi, n + 1 =>
    if hi - lo < tol then some ((lo + hi) / 2)
    else if f ((lo + hi) / 2) = 0 then some ((lo + hi) / 2)
    else if f lo * f ((lo + hi) / 2) < 0 then bisect f tol lo ((lo + hi) / 2) n
    else bisect f tol ((lo + hi) / 2) hi n

/-- Modelled from the spec: scipy.optimize.root_scalar with a [lo, hi]
bracket (missing from src/).  An endpoint that is already a root is
returned; when f(lo) and f(hi) have the same (nonzero) sign there is no
sign change and the search fails with no best-effort value; otherwise the
bracketed iteration runs with the given tolerance and iteration budget. -/
def root_scalar (f : ℚ → ℚ) (lo hi tol : ℚ) (maxIter : ℕ) : Option ℚ :=
  if f lo = 0 then some lo
  else if f hi = 0 then some hi
  else if 0 < f lo * f hi then none
  else bisect f tol lo hi maxIter

/-- Bond.compute_ytm: solves price(y) = market_price for y by bracketed
root finding over [0.0001, 1.0]; guess is accepted but unused (brentq is
purely bracketed); a solver failure propagates (none), and evaluating the
objective recomputes cash_flows, so an empty schedule also fails. -/
def Bond.compute_ytm (b : Bond) (market_price guess tol : ℚ) (max_iter : ℕ) :
    Option ℚ :=
  b.cash_flows.bind (fun cf =>
    root_scalar (fun y => pvSum b y cf - market_price) (1 / 10000) 1 tol max_iter)

/-- The cash-flow amount sequence exactly as the spec words it:
amount_i = face_value * coupon_rate / coupon_frequency for i < periods,
and the final amount additionally includes face_value (0-based index i
here, so the final index is n - 1). -/
def specAmount (face_value coupon_rate : ℚ) (m : ℤ) (n i : ℕ) : ℚ :=
  if i + 1 = n then face_value * coupon_rate / (m : ℚ) + face_value
  else face_value * coupon_rate / (m : ℚ)

/-- The discount factor exactly as the spec words it for the price sum:
(1 + yield_rate / coupon_frequency) to the negative power
coupon_frequency * time_i; since time_i = (i+1)/coupon_frequency the
exponent is -(i+1) (lemma coupon_frequency_mul_time). -/
def specDiscount (y : ℚ) (m : ℤ) (i : ℕ) : ℚ :=
  (1 + y / (m : ℚ)) ^ (-((i : ℤ) + 1))

lemma coupon_frequency_mul_time (b : Bond) (h : b.coupon_frequency ≠ 0) (i : ℕ) :
    (b.coupon_frequency : ℚ) * (((i : ℚ) + 1) / (b.coupon_frequency : ℚ)) = (i : ℚ) + 1 := by
  have hm : (b.coupon_frequency : ℚ) ≠ 0 := Int.cast_ne_zero.mpr h
  field_simp

lemma mkBond_eq_some {fv cr mat : ℚ} {m : ℤ} {b : Bond} :
    mkBond fv cr mat m = some b ↔ 1 ≤ m ∧ b = ⟨fv, cr, mat, m⟩ := by
  by_cases hm : m ≤ 0
  · simp only [mkBond, if_pos hm]
    constructor
    · intro h; exact absurd h (by simp)
    · intro h; omega
  · simp only [mkBond, if_neg hm]
    constructor
    · intro h; exact ⟨by omega, (Option.some_inj.mp h).symm⟩
    · rintro ⟨-, rfl⟩; rfl

lemma addToLast_replicate (x c : ℚ) :
    ∀ k : ℕ, addToLast x (List.replicate (k + 1) c) =
      some (List.replicate k c ++ [c + x]) := by
  intro k
  induction k with
  | zero => rfl
  | succ k ih =>
    have h2 : List.replicate (k + 1 + 1) c = c :: c :: List.replicate k c := rfl
    have h3 : (c : ℚ) :: List.replicate k c = List.replicate (k + 1) c := rfl
    rw [h2, addToLast, h3, ih]
    simp [List.replicate_succ]

lemma cash_flows_eq (b : Bond) (h : 1 ≤ b.periods) :
    b.cash_flows = some (List.replicate (b.periods.toNat - 1) b.coupon ++
      [b.coupon + b.face_value]) := by
  have h0 : 0 ≤ b.periods := by omega
  have hn : b.periods.toNat = b.periods.toNat - 1 + 1 := by omega
  unfold Bond.cash_flows
  rw [if_pos h0]
  conv_lhs => rw [hn]
  rw [addToLast_replicate]

lemma getD_replicate_append (c v : ℚ) :
    ∀ (k i : ℕ), i ≤ k →
      (List.replicate k c ++ [v]).getD i 0 = if i = k then v else c := by
  intro k
  induction k with
  | zero =>
    intro i hi
    have : i = 0 := by omega
    subst this
    rfl
  | succ k ih =>
    intro i hi
    cases i with
    | zero => simp [List.replicate_succ]
    | succ i =>
      rw [List.replicate_succ, List.cons_append, List.getD_cons_succ,
        ih i (by omega)]
      by_cases h : i = k
      · simp [h]
      · simp [h, fun hh => h (Nat.succ_injective hh)]

lemma cf_getD_eq (b : Bond) (hp : 1 ≤ b.periods) (cf : List ℚ)
    (hcf : b.cash_flows = some cf) {i : ℕ} (hi : i < b.periods.toNat) :
    cf.getD i 0 =
      specAmount b.face_value b.coupon_rate b.coupon_frequency b.periods.toNat i := by
  have hc := cash_flows_eq b hp
  rw [hcf] at hc
  have hcf2 := Option.some_inj.mp hc
  have htn : 1 ≤ b.periods.toNat := by omega
  rw [hcf2, getD_replicate_append _ _ _ i (by omega)]
  unfold specAmount Bond.coupon
  by_cases h : i = b.periods.toNat - 1
  · rw [if_pos h, if_pos (by omega)]
  · rw [if_neg h, if_neg (by omega)]

lemma discountFactor_pos (b : Bond) {y : ℚ}
    (hy : 0 < 1 + y / (b.coupon_frequency : ℚ)) (i : ℕ) :
    0 < discountFactor b y i := by
  unfold discountFactor
  exact one_div_pos.mpr (pow_pos hy _)

lemma base_lt_base (b : Bond) (hm : 1 ≤ b.coupon_frequency) {y1 y2 : ℚ}
    (h12 : y1 < y2) :
    1 + y1 / (b.coupon_frequency : ℚ) < 1 + y2 / (b.coupon_frequency : ℚ) := by
  have hmq : (0 : ℚ) < (b.coupon_frequency : ℚ) := by exact_mod_cast (by omega : (0:ℤ) < b.coupon_frequency)
  have := (div_lt_div_iff_of_pos_right hmq).mpr h12
  linarith

lemma discountFactor_anti (b : Bond) (hm : 1 ≤ b.coupon_frequency) {y1 y2 : ℚ}
    (hy1 : 0 < 1 + y1 / (b.coupon_frequency : ℚ)) (h12 : y1 < y2) (i : ℕ) :
    discountFactor b y2 i < discountFactor b y1 i := by
  unfold discountFactor
  have hb := base_lt_base b hm h12
  refine one_div_lt_one_div_of_lt (pow_pos hy1 _) ?_
  exact pow_lt_pow_left hb (le_of_lt hy1) (Nat.succ_ne_zero i)

lemma cf_nonneg (b : Bond) (hp : 1 ≤ b.periods) (hc : 0 ≤ b.coupon)
    (hl : 0 ≤ b.coupon + b.face_value) (cf : List ℚ)
    (hcf : b.cash_flows = some cf) {i : ℕ} (hi : i < b.periods.toNat) :
    0 ≤ cf.getD i 0 := by
  have hc2 := cash_flows_eq b hp
  rw [hcf] at hc2
  rw [Option.some_inj.mp hc2, getD_replicate_append _ _ _ i (by omega)]
  by_cases h : i = b.periods.toNat - 1
  · rw [if_pos h]; exact hl
  · rw [if_neg h]; exact hc

lemma cf_last_pos (b : Bond) (hp : 1 ≤ b.periods)
    (hl : 0 < b.coupon + b.face_value) (cf : List ℚ)
    (hcf : b.cash_flows = some cf) :
    cf.getD (b.periods.toNat - 1) 0 = b.coupon + b.face_value := by
  have hc2 := cash_flows_eq b hp
  rw [hcf] at hc2
  rw [Option.some_inj.mp hc2, getD_replicate_append _ _ _ _ (le_refl _), if_pos rfl]

lemma pvSum_pos (b : Bond) (hp : 1 ≤ b.periods) (hc : 0 ≤ b.coupon)
    (hl : 0 < b.coupon + b.face_value) {y : ℚ}
    (hy : 0 < 1 + y / (b.coupon_frequency : ℚ)) (cf : List ℚ)
    (hcf : b.cash_flows = some cf) : 0 < pvSum b y cf := by
  unfold pvSum
  have htn : 1 ≤ b.periods.toNat := by omega
  refine Finset.sum_pos' (fun i hi => ?_) ?_
  · have hi2 : i < b.periods.toNat := Finset.mem_range.mp hi
    exact mul_nonneg (cf_nonneg b hp hc (le_of_lt hl) cf hcf hi2)
      (le_of_lt (discountFactor_pos b hy i))
  · refine ⟨b.periods.toNat - 1, Finset.mem_range.mpr (by omega), ?_⟩
    rw [cf_last_pos b hp hl cf hcf]
    exact mul_pos hl (discountFactor_pos b hy _)

lemma pvSum_strictAnti (b : Bond) (hp : 1 ≤ b.periods) (hm : 1 ≤ b.coupon_frequency)
    (hc : 0 ≤ b.coupon) (hl : 0 < b.coupon + b.face_value) {y1 y2 : ℚ}
    (hy1 : 0 < 1 + y1 / (b.coupon_frequency : ℚ)) (h12 : y1 < y2) (cf : List ℚ)
    (hcf : b.cash_flows = some cf) : pvSum b y2 cf < pvSum b y1 cf := by
  unfold pvSum
  have htn : 1 ≤ b.periods.toNat := by omega
  refine Finset.sum_lt_sum (fun i hi => ?_) ?_
  · have hi2 : i < b.periods.toNat := Finset.mem_range.mp hi
    exact mul_le_mul_of_nonneg_left (le_of_lt (discountFactor_anti b hm hy1 h12 i))
      (cf_nonneg b hp hc (le_of_lt hl) cf hcf hi2)
  · refine ⟨b.periods.toNat - 1, Finset.mem_range.mpr (by omega), ?_⟩
    rw [cf_last_pos b hp hl cf hcf]
    exact mul_lt_mul_of_pos_left (discountFactor_anti b hm hy1 h12 _) hl

lemma wtSum_bounds (b : Bond) (hp : 1 ≤ b.periods) (hm : 1 ≤ b.coupon_frequency)
    (hc : 0 ≤ b.coupon) (hl : 0 < b.coupon + b.face_value) {y : ℚ}
    (hy : 0 < 1 + y / (b.coupon_frequency : ℚ)) (cf : List ℚ)
    (hcf : b.cash_flows = some cf) :
    1 / (b.coupon_frequency : ℚ) * pvSum b y cf ≤ wtSum b y cf ∧
      wtSum b y cf ≤ (b.periods.toNat : ℚ) / (b.coupon_frequency : ℚ) * pvSum b y cf := by
  have hmq : (0 : ℚ) < (b.coupon_frequency : ℚ) := by
    exact_mod_cast (by omega : (0:ℤ) < b.coupon_frequency)
  unfold wtSum pvSum
  rw [Finset.mul_sum, Finset.mul_sum]
  constructor
  · refine Finset.sum_le_sum (fun i hi => ?_)
    have hi2 : i < b.periods.toNat := Finset.mem_range.mp hi
    have hw : 0 ≤ cf.getD i 0 * discountFactor b y i :=
      mul_nonneg (cf_nonneg b hp hc (le_of_lt hl) cf hcf hi2)
        (le_of_lt (discountFactor_pos b hy i))
    have ht : 1 / (b.coupon_frequency : ℚ) ≤ ((i : ℚ) + 1) / (b.coupon_frequency : ℚ) := by
      refine (div_le_div_right hmq).mpr ?_
      have := Nat.cast_nonneg (α := ℚ) i
      linarith
    calc 1 / (b.coupon_frequency : ℚ) * (cf.getD i 0 * discountFactor b y i)
        ≤ ((i : ℚ) + 1) / (b.coupon_frequency : ℚ) * (cf.getD i 0 * discountFactor b y i) :=
          mul_le_mul_of_nonneg_right ht hw
      _ = ((i : ℚ) + 1) / (b.coupon_frequency : ℚ) * cf.getD i 0 * discountFactor b y i := by
          ring
  · refine Finset.sum_le_sum (fun i hi => ?_)
    have hi2 : i < b.periods.toNat := Finset.mem_range.mp hi
    have hw : 0 ≤ cf.getD i 0 * discountFactor b y i :=
      mul_nonneg (cf_nonneg b hp hc (le_of_lt hl) cf hcf hi2)
        (le_of_lt (discountFactor_pos b hy i))
    have ht : ((i : ℚ) + 1) / (b.coupon_frequency : ℚ) ≤
        (b.periods.toNat : ℚ) / (b.coupon_frequency : ℚ) := by
      refine (div_le_div_right hmq).mpr ?_
      exact_mod_cast hi2
    calc ((i : ℚ) + 1) / (b.coupon_frequency : ℚ) * cf.getD i 0 * discountFactor b y i
        = ((i : ℚ) + 1) / (b.coupon_frequency : ℚ) * (cf.getD i 0 * discountFactor b y i) := by
          ring
      _ ≤ (b.periods.toNat : ℚ) / (b.coupon_frequency : ℚ) * (cf.getD i 0 * discountFactor b y i) :=
          mul_le_mul_of_nonneg_right ht hw

lemma bisect_mem (f : ℚ → ℚ) (tol : ℚ) :
    ∀ (n : ℕ) (lo hi r : ℚ), lo ≤ hi → bisect f tol lo hi n = some r →
      lo ≤ r ∧ r ≤ hi := by
  intro n
  induction n with
  | zero => intro lo hi r _ h; simp [bisect] at h
  | succ n ih =>
    intro lo hi r hlh h
    rw [bisect] at h
    split_ifs at h with h1 h2 h3
    · have hr := Option.some_inj.mp h
      constructor <;> (rw [← hr]; linarith)
    · have hr := Option.some_inj.mp h
      constructor <;> (rw [← hr]; linarith)
    · have := ih lo ((lo + hi) / 2) r (by linarith) h
      exact ⟨this.1, by linarith [this.2]⟩
    · have := ih ((lo + hi) / 2) hi r (by linarith) h
      exact ⟨by linarith [this.1], this.2⟩

lemma bisect_converges (f : ℚ → ℚ) (y tol : ℚ) (htol : 0 < tol) :
    ∀ (n : ℕ) (lo hi : ℚ), lo < y → y < hi → f y = 0 →
      (∀ a c, lo ≤ a → a < c → c ≤ hi → f c < f a) →
      hi - lo < tol * 2 ^ n →
      ∃ r, bisect f tol lo hi (n + 1) = some r ∧ |r - y| < tol := by
  intro n
  induction n with
  | zero =>
    intro lo hi h1 h2 hy hmono hw
    rw [pow_zero, mul_one] at hw
    refine ⟨(lo + hi) / 2, ?_, ?_⟩
    · rw [bisect, if_pos hw]
    · rw [abs_lt]; constructor <;> linarith
  | succ n ih =>
    intro lo hi h1 h2 hy hmono hw
    by_cases hsmall : hi - lo < tol
    · refine ⟨(lo + hi) / 2, ?_, ?_⟩
      · rw [bisect, if_pos hsmall]
      · rw [abs_lt]; constructor <;> linarith
    · have hflo : 0 < f lo := by
        have := hmono lo y le_rfl h1 (le_of_lt h2)
        rw [hy] at this; exact this
      by_cases hf0 : f ((lo + hi) / 2) = 0
      · have hmidy : (lo + hi) / 2 = y := by
          rcases lt_trichotomy ((lo + hi) / 2) y with h | h | h
          · have := hmono ((lo + hi) / 2) y (by linarith) h (le_of_lt h2)
            rw [hy, hf0] at this; linarith
          · exact h
          · have := hmono y ((lo + hi) / 2) (le_of_lt h1) h (by linarith)
            rw [hy, hf0] at this; linarith
        refine ⟨(lo + hi) / 2, ?_, ?_⟩
        · rw [bisect, if_neg hsmall, if_pos hf0]
        · rw [hmidy]; simpa using htol
      · by_cases hneg : f lo * f ((lo + hi) / 2) < 0
        · have hfmid : f ((lo + hi) / 2) < 0 := by
            by_contra hcon
            push_neg at hcon
            nlinarith [mul_nonneg (le_of_lt hflo) hcon]
          have hymid : y < (lo + hi) / 2 := by
            rcases lt_trichotomy y ((lo + hi) / 2) with h | h | h
            · exact h
            · rw [← h] at hfmid; rw [hy] at hfmid; linarith
            · have := hmono ((lo + hi) / 2) y (by linarith) h (le_of_lt h2)
              rw [hy] at this; linarith
          obtain ⟨r, hr, hry⟩ := ih lo ((lo + hi) / 2) h1 hymid hy
            (fun a c ha hac hc => hmono a c ha hac (by linarith))
            (by rw [pow_succ] at hw; linarith)
          exact ⟨r, by rw [bisect, if_neg hsmall, if_neg hf0, if_pos hneg]; exact hr, hry⟩
        · have hfmid : 0 < f ((lo + hi) / 2) := by
            rcases lt_or_gt_of_ne hf0 with h | h
            · exact absurd (mul_neg_of_pos_of_neg hflo h) hneg
            · exact h
          have hmidy : (lo + hi) / 2 < y := by
            rcases lt_trichotomy ((lo + hi) / 2) y with h | h | h
            · exact h
            · rw [h, hy] at hfmid; linarith
            · have := hmono y ((lo + hi) / 2) (le_of_lt h1) h (by linarith)
              rw [hy] at this; linarith
          obtain ⟨r, hr, hry⟩ := ih ((lo + hi) / 2) hi hmidy h2 hy
            (fun a c ha hac hc => hmono a c (by linarith) hac hc)
            (by rw [pow_succ] at hw; linarith)
          exact ⟨r, by rw [bisect, if_neg hsmall, if_neg hf0, if_neg hneg]; exact hr, hry⟩

lemma root_scalar_none_iff (f : ℚ → ℚ) (lo hi tol : ℚ) (it : ℕ) :
    root_scalar f lo hi tol it = none ↔
      (0 < f lo * f hi ∨
        (f lo ≠ 0 ∧ f hi ≠ 0 ∧ bisect f tol lo hi it = none)) := by
  unfold root_scalar
  split_ifs with h1 h2 h3
  · simp [h1]
  · simp [h1, h2]
  · simp [h3]
  · simp [h1, h2, h3]

lemma root_scalar_mem (f : ℚ → ℚ) (lo hi tol : ℚ) (it : ℕ) (r : ℚ)
    (hlh : lo ≤ hi) (h : root_scalar f lo hi tol it = some r) :
    lo ≤ r ∧ r ≤ hi := by
  unfold root_scalar at h
  split_ifs at h with h1 h2 h3
  · rw [← Option.some_inj.mp h]; exact ⟨le_rfl, hlh⟩
  · rw [← Option.some_inj.mp h]; exact ⟨hlh, le_rfl⟩
  · exact bisect_mem f tol it lo hi r hlh h

lemma price_eq_some (b : Bond) (y : ℚ) (cf : List ℚ)
    (hcf : b.cash_flows = some cf) : b.price y = some (pvSum b y cf) := by
  rw [Bond.price, hcf]; rfl

lemma periods_le (b : Bond) (hp : 1 ≤ b.periods) :
    (b.periods.toNat : ℚ) ≤ b.maturity * (b.coupon_frequency : ℚ) := by
  have h0 : (0:ℚ) ≤ b.maturity * (b.coupon_frequency : ℚ) := by
    by_contra hneg
    push_neg at hneg
    have hper : b.periods = ⌈b.maturity * (b.coupon_frequency : ℚ)⌉ := by
      unfold Bond.periods ratTrunc; rw [if_neg (not_le.mpr hneg)]
    have : ⌈b.maturity * (b.coupon_frequency : ℚ)⌉ ≤ (0:ℤ) :=
      Int.ceil_le.mpr (by exact_mod_cast le_of_lt hneg)
    omega
  have hper : b.periods = ⌊b.maturity * (b.coupon_frequency : ℚ)⌋ := by
    unfold Bond.periods ratTrunc; rw [if_pos h0]
  have h2 : ((b.periods.toNat : ℤ) : ℚ) = ((b.periods : ℤ) : ℚ) := by
    rw [Int.toNat_of_nonneg (by omega)]
  calc (b.periods.toNat : ℚ) = ((b.periods : ℤ) : ℚ) := by exact_mod_cast h2
    _ ≤ b.maturity * (b.coupon_frequency : ℚ) := by rw [hper]; exact Int.floor_le _

/-- C8: bond construction fails with an invalid-argument error if and only
if coupon_frequency < 1 (the source check coupon_frequency <= 0 over the
integers); constructing with coupon_frequency = 0 fails, and every
successfully constructed bond has coupon_frequency >= 1. -/
theorem construction_invalid_argument (fv cr mat : ℚ) (m : ℤ) (b : Bond) :
    ((mkBond fv cr mat m).isNone ↔ m < 1) ∧
      (mkBond fv cr mat m = some b → 1 ≤ b.coupon_frequency) := by
  constructor
  · by_cases hm : m ≤ 0
    · simp only [mkBond, if_pos hm, Option.isNone_none]
      constructor
      · intro _; omega
      · intro _; trivial
    · simp only [mkBond, if_neg hm, Option.isNone_some]
      constructor
      · intro h; exact absurd h (by simp)
      · intro h; exact absurd h (by omega)
  · intro h
    obtain ⟨h1, rfl⟩ := mkBond_eq_some.mp h
    exact h1

theorem construction_invalid_argument_witness :
    ((mkBond 1000 (3/50) 5 0).isNone ↔ (0:ℤ) < 1) ∧
      (mkBond 1000 (3/50) 5 0 = some ⟨1000, 3/50, 5, 0⟩ →
        1 ≤ (⟨1000, 3/50, 5, 0⟩ : Bond).coupon_frequency) :=
  construction_invalid_argument 1000 (3/50) 5 0 ⟨1000, 3/50, 5, 0⟩

/-- C9: the initial guess parameter of compute_ytm has no influence on the
result: for any two guess values the outcome (returned yield or failure)
is identical, the search being purely bracketed. -/
theorem compute_ytm_ignores_guess (b : Bond) (P g1 g2 tol : ℚ) (it : ℕ) :
    b.compute_ytm P g1 tol it = b.compute_ytm P g2 tol it := rfl

/-- C10: a bond constructed with maturity * coupon_frequency < 1 has
periods = 0, the degenerate empty schedule; cash_flows fails (the source
indexes the last element of an empty array), and price,
macaulay_duration, modified_duration, convexity and compute_ytm all fail
rather than returning a value. -/
theorem degenerate_schedule_all_fail (fv cr mat : ℚ) (m : ℤ) (b : Bond)
    (hb : mkBond fv cr mat m = some b) (hmat : 0 < mat)
    (hdeg : mat * (m : ℚ) < 1) (y P g tol : ℚ) (it : ℕ) :
    b.periods = 0 ∧ b.cash_flows = none ∧ b.price y = none ∧
      b.macaulay_duration y = none ∧ b.modified_duration y = none ∧
      b.convexity y = none ∧ b.compute_ytm P g tol it = none := by
  obtain ⟨hm, rfl⟩ := mkBond_eq_some.mp hb
  have hmq : (0:ℚ) < (m : ℚ) := by exact_mod_cast (by omega : (0:ℤ) < m)
  have h0 : (0:ℚ) ≤ mat * (m : ℚ) := le_of_lt (mul_pos hmat hmq)
  have hper : (⟨fv, cr, mat, m⟩ : Bond).periods = 0 := by
    unfold Bond.periods ratTrunc
    rw [if_pos h0]
    exact Int.floor_eq_zero_iff.mpr (Set.mem_Ico.mpr ⟨h0, hdeg⟩)
  have hcf : (⟨fv, cr, mat, m⟩ : Bond).cash_flows = none := by
    unfold Bond.cash_flows
    rw [hper]
    rfl
  refine ⟨hper, hcf, ?_, ?_, ?_, ?_, ?_⟩
  · rw [Bond.price, hcf]; rfl
  · rw [Bond.macaulay_duration, hcf]; rfl
  · rw [Bond.modified_duration, Bond.macaulay_duration, hcf]; rfl
  · rw [Bond.convexity, hcf]; rfl
  · rw [Bond.compute_ytm, hcf]; rfl

theorem degenerate_schedule_all_fail_witness :
    (⟨100, 1/20, 1/2, 1⟩ : Bond).periods = 0 ∧
      (⟨100, 1/20, 1/2, 1⟩ : Bond).cash_flows = none ∧
      (⟨100, 1/20, 1/2, 1⟩ : Bond).price 0 = none ∧
      (⟨100, 1/20, 1/2, 1⟩ : Bond).macaulay_duration 0 = none ∧
      (⟨100, 1/20, 1/2, 1⟩ : Bond).modified_duration 0 = none ∧
      (⟨100, 1/20, 1/2, 1⟩ : Bond).convexity 0 = none ∧
      (⟨100, 1/20, 1/2, 1⟩ : Bond).compute_ytm 90 (1/20) (1/1000000) 100 = none :=
  degenerate_schedule_all_fail 100 (1/20) (1/2) 1 ⟨100, 1/20, 1/2, 1⟩
    (by norm_num [mkBond]) (by norm_num) (by norm_num) 0 90 (1/20) (1/1000000) 100

lemma discountFactor_eq_specDiscount (b : Bond) (y : ℚ) (i : ℕ) :
    discountFactor b y i = specDiscount y b.coupon_frequency i := by
  unfold discountFactor specDiscount
  rw [(by push_cast; ring : -((i:ℤ) + 1) = -(((i + 1 : ℕ)) : ℤ)), zpow_neg,
    zpow_natCast, one_div]

/-- C1: for every bond constructed with face_value > 0, coupon_rate >= 0,
maturity > 0, coupon_frequency >= 1 and periods >= 1, price(yield_rate)
equals the sum over the periods of amount_i times the discount factor
(1 + yield_rate/coupon_frequency)^(-coupon_frequency * time_i); the
exponent coupon_frequency * time_i is exactly i (1-based), per
coupon_frequency_mul_time, and the final amount bundles the principal. -/
theorem price_matches_spec_formula (fv cr mat : ℚ) (m : ℤ) (b : Bond)
    (hfv : 0 < fv) (hcr : 0 ≤ cr) (hmat : 0 < mat) (hm : 1 ≤ m)
    (hb : mkBond fv cr mat m = some b) (hp : 1 ≤ b.periods) (y : ℚ) :
    b.price y = some (∑ i in Finset.range b.periods.toNat,
      specAmount fv cr m b.periods.toNat i * specDiscount y m i) := by
  obtain ⟨-, rfl⟩ := mkBond_eq_some.mp hb
  have hcf := cash_flows_eq _ hp
  rw [price_eq_some _ y _ hcf]
  congr 1
  unfold pvSum
  refine Finset.sum_congr rfl (fun i hi => ?_)
  rw [cf_getD_eq _ hp _ hcf (Finset.mem_range.mp hi),
    discountFactor_eq_specDiscount]

theorem price_matches_spec_formula_witness :
    (⟨100, 1/10, 2, 1⟩ : Bond).price (1/2) =
      some (∑ i in Finset.range (⟨100, 1/10, 2, 1⟩ : Bond).periods.toNat,
        specAmount 100 (1/10) 1 (⟨100, 1/10, 2, 1⟩ : Bond).periods.toNat i *
          specDiscount (1/2) 1 i) :=
  price_matches_spec_formula 100 (1/10) 2 1 ⟨100, 1/10, 2, 1⟩
    (by norm_num) (by norm_num) (by norm_num) (by norm_num)
    (by norm_num [mkBond])
    (by norm_num [Bond.periods, ratTrunc]) (1/2)

/-- C2: for every valid bond with periods >= 1 and every yield y with
1 + y/coupon_frequency > 0 and price(y) nonzero, convexity(y) equals the
sum over i = 1..periods of i*(i+1)*amount_i*(1+y/coupon_frequency)^(-(i+2))
divided by (price * coupon_frequency^2); the convexity discount exponent
is the period-index power -(i+2), not the compounding-adjusted time power
of the price sum (the denominator term of the source, sum of
cf_i*(1+y/m)^(-i), coincides with the price). -/
lemma convexity_eq (b : Bond) (hp : 1 ≤ b.periods) (y : ℚ) (cf : List ℚ)
    (hcf : b.cash_flows = some cf) :
    b.convexity y = some ((∑ i in Finset.range b.periods.toNat,
      ((i : ℚ) + 1) * ((i : ℚ) + 2) *
        specAmount b.face_value b.coupon_rate b.coupon_frequency b.periods.toNat i *
        (1 + y / (b.coupon_frequency : ℚ)) ^ (-((i : ℤ) + 3))) /
      (pvSum b y cf * (b.coupon_frequency : ℚ) ^ 2)) := by
  rw [Bond.convexity, hcf, Option.map_some']
  congr 1
  congr 1
  · refine Finset.sum_congr rfl (fun i hi => ?_)
    rw [cf_getD_eq b hp cf hcf (Finset.mem_range.mp hi),
      (by push_cast; ring : -((i:ℤ) + 3) = -(((i + 3 : ℕ)) : ℤ)), zpow_neg,
      zpow_natCast, div_eq_mul_inv]
  · congr 1
    unfold pvSum discountFactor
    exact Finset.sum_congr rfl (fun i _ => by rw [div_eq_mul_one_div])

theorem convexity_matches_spec_formula (fv cr mat : ℚ) (m : ℤ) (b : Bond)
    (hfv : 0 < fv) (hcr : 0 ≤ cr) (hmat : 0 < mat)
    (hb : mkBond fv cr mat m = some b) (hp : 1 ≤ b.periods) (y : ℚ)
    (hbase : 0 < 1 + y / (m : ℚ)) (p : ℚ) (hprice : b.price y = some p)
    (hpne : p ≠ 0) :
    b.convexity y = some ((∑ i in Finset.range b.periods.toNat,
      ((i : ℚ) + 1) * ((i : ℚ) + 2) * specAmount fv cr m b.periods.toNat i *
        (1 + y / (m : ℚ)) ^ (-((i : ℤ) + 3))) / (p * (m : ℚ) ^ 2)) := by
  obtain ⟨-, rfl⟩ := mkBond_eq_some.mp hb
  have hcf := cash_flows_eq _ hp
  have hpv := price_eq_some _ y _ hcf
  rw [hprice] at hpv
  have hpeq := Option.some_inj.mp hpv
  rw [convexity_eq _ hp y _ hcf, hpeq]

theorem convexity_matches_spec_formula_witness :
    (⟨100, 0, 1, 1⟩ : Bond).convexity (1/2) =
      some ((∑ i in Finset.range (⟨100, 0, 1, 1⟩ : Bond).periods.toNat,
        ((i : ℚ) + 1) * ((i : ℚ) + 2) *
          specAmount 100 0 1 (⟨100, 0, 1, 1⟩ : Bond).periods.toNat i *
          (1 + (1/2) / ((1:ℤ) : ℚ)) ^ (-((i : ℤ) + 3))) / ((200/3) * ((1:ℤ) : ℚ) ^ 2)) :=
  convexity_matches_spec_formula 100 0 1 1 ⟨100, 0, 1, 1⟩
    (by norm_num) le_rfl (by norm_num) (by norm_num [mkBond])
    (by norm_num [Bond.periods, ratTrunc]) (1/2) (by norm_num) (200/3)
    (by norm_num [Bond.price, Bond.cash_flows, Bond.periods, ratTrunc, Bond.coupon,
      addToLast, List.replicate, pvSum, discountFactor, Finset.sum_range_succ])
    (by norm_num)

/-- C5: for every valid bond (face_value > 0, coupon_rate >= 0,
periods >= 1) and all yields y1 < y2 above -coupon_frequency, price is
strictly decreasing: price(y2) < price(y1). -/
theorem price_strict_decreasing (fv cr mat : ℚ) (m : ℤ) (b : Bond)
    (hfv : 0 < fv) (hcr : 0 ≤ cr) (hb : mkBond fv cr mat m = some b)
    (hp : 1 ≤ b.periods) (y1 y2 : ℚ) (h12 : y1 < y2)
    (hy1 : -(m : ℚ) < y1) (hy2 : -(m : ℚ) < y2)
    (p1 p2 : ℚ) (hp1 : b.price y1 = some p1) (hp2 : b.price y2 = some p2) :
    p2 < p1 := by
  obtain ⟨hm, rfl⟩ := mkBond_eq_some.mp hb
  obtain ⟨cf, hcf⟩ : ∃ l, (⟨fv, cr, mat, m⟩ : Bond).cash_flows = some l :=
    ⟨_, cash_flows_eq _ hp⟩
  have e1 := price_eq_some _ y1 _ hcf
  rw [hp1] at e1
  have e2 := price_eq_some _ y2 _ hcf
  rw [hp2] at e2
  rw [Option.some_inj.mp e1, Option.some_inj.mp e2]
  have hmq : (0:ℚ) < (m : ℚ) := by exact_mod_cast (by omega : (0:ℤ) < m)
  have hcoup : 0 ≤ (⟨fv, cr, mat, m⟩ : Bond).coupon :=
    div_nonneg (mul_nonneg (le_of_lt hfv) hcr) (le_of_lt hmq)
  have hlast : 0 < (⟨fv, cr, mat, m⟩ : Bond).coupon + fv :=
    add_pos_of_nonneg_of_pos hcoup hfv
  have hbase1 : 0 < 1 + y1 / (m : ℚ) := by
    have h := (div_lt_div_iff_of_pos_right hmq).mpr hy1
    rw [neg_div, div_self (ne_of_gt hmq)] at h
    linarith
  exact pvSum_strictAnti _ hp hm hcoup hlast hbase1 h12 _ hcf

theorem price_strict_decreasing_witness : (200/3 : ℚ) < 100 :=
  price_strict_decreasing 100 0 1 1 ⟨100, 0, 1, 1⟩ (by norm_num) le_rfl
    (by norm_num [mkBond]) (by norm_num [Bond.periods, ratTrunc])
    0 (1/2) (by norm_num) (by norm_num) (by norm_num) 100 (200/3)
    (by norm_num [Bond.price, Bond.cash_flows, Bond.periods, ratTrunc, Bond.coupon,
      addToLast, List.replicate, pvSum, discountFactor, Finset.sum_range_succ])
    (by norm_num [Bond.price, Bond.cash_flows, Bond.periods, ratTrunc, Bond.coupon,
      addToLast, List.replicate, pvSum, discountFactor, Finset.sum_range_succ])

/-- C6: for every valid bond with periods >= 1 and nonnegative coupons
(positive final cash flow), and every yield above -coupon_frequency,
the Macaulay duration lies between the shortest cash-flow time
1/coupon_frequency and maturity, inclusive. -/
theorem macaulay_duration_bounds (fv cr mat : ℚ) (m : ℤ) (b : Bond)
    (hfv : 0 < fv) (hcr : 0 ≤ cr) (hmat : 0 < mat)
    (hb : mkBond fv cr mat m = some b) (hp : 1 ≤ b.periods)
    (y : ℚ) (hy : -(m : ℚ) < y) (d : ℚ)
    (hd : b.macaulay_duration y = some d) :
    1 / (m : ℚ) ≤ d ∧ d ≤ mat := by
  obtain ⟨hm, rfl⟩ := mkBond_eq_some.mp hb
  obtain ⟨cf, hcf⟩ : ∃ l, (⟨fv, cr, mat, m⟩ : Bond).cash_flows = some l :=
    ⟨_, cash_flows_eq _ hp⟩
  rw [Bond.macaulay_duration, hcf, Option.map_some'] at hd
  have hdv := Option.some_inj.mp hd
  have hmq : (0:ℚ) < (m : ℚ) := by exact_mod_cast (by omega : (0:ℤ) < m)
  have hcoup : 0 ≤ (⟨fv, cr, mat, m⟩ : Bond).coupon :=
    div_nonneg (mul_nonneg (le_of_lt hfv) hcr) (le_of_lt hmq)
  have hlast : 0 < (⟨fv, cr, mat, m⟩ : Bond).coupon + fv :=
    add_pos_of_nonneg_of_pos hcoup hfv
  have hbase : 0 < 1 + y / (m : ℚ) := by
    have h := (div_lt_div_iff_of_pos_right hmq).mpr hy
    rw [neg_div, div_self (ne_of_gt hmq)] at h
    linarith
  have hpv := pvSum_pos _ hp hcoup hlast hbase _ hcf
  have hwb := wtSum_bounds _ hp hm hcoup hlast hbase _ hcf
  constructor
  · rw [← hdv, le_div_iff hpv]
    exact hwb.1
  · rw [← hdv, div_le_iff hpv]
    calc wtSum (⟨fv, cr, mat, m⟩ : Bond) y cf
        ≤ ((⟨fv, cr, mat, m⟩ : Bond).periods.toNat : ℚ) / (m : ℚ) *
          pvSum (⟨fv, cr, mat, m⟩ : Bond) y cf := hwb.2
      _ ≤ mat * pvSum (⟨fv, cr, mat, m⟩ : Bond) y cf := by
          refine mul_le_mul_of_nonneg_right ?_ (le_of_lt hpv)
          rw [div_le_iff hmq]
          exact periods_le _ hp

theorem macaulay_duration_bounds_witness :
    1 / ((1:ℤ) : ℚ) ≤ 1 ∧ (1:ℚ) ≤ 1 :=
  macaulay_duration_bounds 100 0 1 1 ⟨100, 0, 1, 1⟩ (by norm_num) le_rfl
    (by norm_num) (by norm_num [mkBond]) (by norm_num [Bond.periods, ratTrunc])
    (1/2) (by norm_num) 1
    (by norm_num [Bond.macaulay_duration, Bond.cash_flows, Bond.periods, ratTrunc,
      Bond.coupon, addToLast, List.replicate, pvSum, wtSum, discountFactor,
      Finset.sum_range_succ])

/-- C7: for every valid bond with periods >= 1 and every yield_rate > 0,
the modified duration (macaulay / (1 + yield/coupon_frequency)) is
strictly smaller than the Macaulay duration. -/
theorem modified_lt_macaulay (fv cr mat : ℚ) (m : ℤ) (b : Bond)
    (hfv : 0 < fv) (hcr : 0 ≤ cr) (hmat : 0 < mat)
    (hb : mkBond fv cr mat m = some b) (hp : 1 ≤ b.periods)
    (y : ℚ) (hy : 0 < y) (d dmod : ℚ)
    (hd : b.macaulay_duration y = some d)
    (hdm : b.modified_duration y = some dmod) :
    dmod < d := by
  obtain ⟨hm, rfl⟩ := mkBond_eq_some.mp hb
  obtain ⟨cf, hcf⟩ : ∃ l, (⟨fv, cr, mat, m⟩ : Bond).cash_flows = some l :=
    ⟨_, cash_flows_eq _ hp⟩
  have hmq : (0:ℚ) < (m : ℚ) := by exact_mod_cast (by omega : (0:ℤ) < m)
  have hbase1 : (1:ℚ) < 1 + y / (m : ℚ) := by
    have : 0 < y / (m : ℚ) := div_pos hy hmq
    linarith
  have hbase0 : (0:ℚ) < 1 + y / (m : ℚ) := by linarith
  have hcoup : 0 ≤ (⟨fv, cr, mat, m⟩ : Bond).coupon :=
    div_nonneg (mul_nonneg (le_of_lt hfv) hcr) (le_of_lt hmq)
  have hlast : 0 < (⟨fv, cr, mat, m⟩ : Bond).coupon + fv :=
    add_pos_of_nonneg_of_pos hcoup hfv
  have hpv := pvSum_pos _ hp hcoup hlast hbase0 _ hcf
  have hwlow := (wtSum_bounds _ hp hm hcoup hlast hbase0 _ hcf).1
  have hwpos : 0 < wtSum (⟨fv, cr, mat, m⟩ : Bond) y cf :=
    lt_of_lt_of_le (mul_pos (one_div_pos.mpr hmq) hpv) hwlow
  rw [Bond.macaulay_duration, hcf, Option.map_some'] at hd
  have hdv := Option.some_inj.mp hd
  rw [Bond.modified_duration, Bond.macaulay_duration, hcf, Option.map_some',
    Option.map_some'] at hdm
  have hdmv := Option.some_inj.mp hdm
  have hdpos : 0 < d := hdv ▸ div_pos hwpos hpv
  rw [← hdmv, hdv]
  exact div_lt_self hdpos hbase1

theorem modified_lt_macaulay_witness : (2/3 : ℚ) < 1 :=
  modified_lt_macaulay 100 0 1 1 ⟨100, 0, 1, 1⟩ (by norm_num) le_rfl
    (by norm_num) (by norm_num [mkBond]) (by norm_num [Bond.periods, ratTrunc])
    (1/2) (by norm_num) 1 (2/3)
    (by norm_num [Bond.macaulay_duration, Bond.cash_flows, Bond.periods, ratTrunc,
      Bond.coupon, addToLast, List.replicate, pvSum, wtSum, discountFactor,
      Finset.sum_range_succ])
    (by norm_num [Bond.modified_duration, Bond.macaulay_duration, Bond.cash_flows,
      Bond.periods, ratTrunc, Bond.coupon, addToLast, List.replicate, pvSum, wtSum,
      discountFactor, Finset.sum_range_succ])

/-- C3: compute_ytm either returns a yield inside the bracket
[0.0001, 1.0] or fails with no best-effort value (none); and it fails
exactly when the objective price(y) - market_price has no sign change
over the bracket (same nonzero sign at both endpoints) or the bracketed
iteration exhausts max_iterations without converging (solver modelled
from the bracketed root-finding contract of the spec). -/
theorem compute_ytm_failure_semantics (fv cr mat : ℚ) (m : ℤ) (b : Bond)
    (hb : mkBond fv cr mat m = some b) (hp : 1 ≤ b.periods)
    (P g tol : ℚ) (it : ℕ) (cf : List ℚ) (hcf : b.cash_flows = some cf)
    (y : ℚ) :
    (b.compute_ytm P g tol it = some y → 1 / 10000 ≤ y ∧ y ≤ 1) ∧
      (b.compute_ytm P g tol it = none ↔
        (0 < (pvSum b (1 / 10000) cf - P) * (pvSum b 1 cf - P) ∨
          ((pvSum b (1 / 10000) cf - P) ≠ 0 ∧ (pvSum b 1 cf - P) ≠ 0 ∧
            bisect (fun x => pvSum b x cf - P) tol (1 / 10000) 1 it = none))) := by
  have hyt : b.compute_ytm P g tol it =
      root_scalar (fun x => pvSum b x cf - P) (1 / 10000) 1 tol it := by
    rw [Bond.compute_ytm, hcf]
    rfl
  constructor
  · intro h
    rw [hyt] at h
    exact root_scalar_mem _ _ _ _ _ _ (by norm_num) h
  · rw [hyt]
    exact root_scalar_none_iff _ _ _ _ _

theorem compute_ytm_failure_semantics_witness :
    ((⟨100, 0, 1, 1⟩ : Bond).compute_ytm 50 (1/20) (1/1000000) 100 = some (1/2) →
      1 / 10000 ≤ (1/2 : ℚ) ∧ (1/2 : ℚ) ≤ 1) ∧
      ((⟨100, 0, 1, 1⟩ : Bond).compute_ytm 50 (1/20) (1/1000000) 100 = none ↔
        (0 < (pvSum ⟨100, 0, 1, 1⟩ (1 / 10000) [100] - 50) *
            (pvSum ⟨100, 0, 1, 1⟩ 1 [100] - 50) ∨
          ((pvSum ⟨100, 0, 1, 1⟩ (1 / 10000) [100] - 50) ≠ 0 ∧
            (pvSum ⟨100, 0, 1, 1⟩ 1 [100] - 50) ≠ 0 ∧
            bisect (fun x => pvSum ⟨100, 0, 1, 1⟩ x [100] - 50) (1/1000000)
              (1 / 10000) 1 100 = none))) :=
  compute_ytm_failure_semantics 100 0 1 1 ⟨100, 0, 1, 1⟩ (by norm_num [mkBond])
    (by norm_num [Bond.periods, ratTrunc]) 50 (1/20) (1/1000000) 100 [100]
    (by norm_num [Bond.cash_flows, Bond.periods, ratTrunc, Bond.coupon, addToLast,
      List.replicate]) (1/2)

/-- C4: round-trip consistency: for every valid bond with periods >= 1 and
every yield strictly inside (0.0001, 1.0), compute_ytm applied to
price(y) with the default guess 0.05, tolerance 1e-6 and 100 iterations
succeeds and returns a yield within the solver tolerance of y (solver
modelled from the bracketed root-finding contract of the spec). -/
theorem compute_ytm_price_roundtrip (fv cr mat : ℚ) (m : ℤ) (b : Bond)
    (hfv : 0 < fv) (hcr : 0 ≤ cr) (hmat : 0 < mat)
    (hb : mkBond fv cr mat m = some b) (hp : 1 ≤ b.periods)
    (y : ℚ) (hy1 : 1 / 10000 < y) (hy2 : y < 1)
    (p : ℚ) (hprice : b.price y = some p) :
    ∃ r, b.compute_ytm p (1 / 20) (1 / 1000000) 100 = some r ∧
      |r - y| < 1 / 1000000 := by
  obtain ⟨hm, rfl⟩ := mkBond_eq_some.mp hb
  obtain ⟨cf, hcf⟩ : ∃ l, (⟨fv, cr, mat, m⟩ : Bond).cash_flows = some l :=
    ⟨_, cash_flows_eq _ hp⟩
  have hpv := price_eq_some _ y _ hcf
  rw [hprice] at hpv
  have hpeq := Option.some_inj.mp hpv
  have hmq : (0:ℚ) < (m : ℚ) := by exact_mod_cast (by omega : (0:ℤ) < m)
  have hcoup : 0 ≤ (⟨fv, cr, mat, m⟩ : Bond).coupon :=
    div_nonneg (mul_nonneg (le_of_lt hfv) hcr) (le_of_lt hmq)
  have hlast : 0 < (⟨fv, cr, mat, m⟩ : Bond).coupon + fv :=
    add_pos_of_nonneg_of_pos hcoup hfv
  have hmono : ∀ a c, 1 / 10000 ≤ a → a < c → c ≤ 1 →
      pvSum (⟨fv, cr, mat, m⟩ : Bond) c cf - p <
        pvSum (⟨fv, cr, mat, m⟩ : Bond) a cf - p := by
    intro a c ha hac hc
    have ha0 : (0:ℚ) < a := lt_of_lt_of_le (by norm_num) ha
    have hbase : 0 < 1 + a / (m : ℚ) := by
      have : 0 < a / (m : ℚ) := div_pos ha0 hmq
      linarith
    have := pvSum_strictAnti _ hp hm hcoup hlast hbase hac _ hcf
    linarith
  have hfy : pvSum (⟨fv, cr, mat, m⟩ : Bond) y cf - p = 0 := by
    rw [hpeq, sub_self]
  have hflo : 0 < pvSum (⟨fv, cr, mat, m⟩ : Bond) (1 / 10000) cf - p := by
    have := hmono (1 / 10000) y le_rfl hy1 (le_of_lt hy2)
    rw [hfy] at this
    exact this
  have hfhi : pvSum (⟨fv, cr, mat, m⟩ : Bond) 1 cf - p < 0 := by
    have := hmono y 1 (le_of_lt hy1) hy2 le_rfl
    rw [hfy] at this
    exact this
  obtain ⟨r, hr, hry⟩ := bisect_converges
    (fun x => pvSum (⟨fv, cr, mat, m⟩ : Bond) x cf - p) y (1 / 1000000)
    (by norm_num) 99 (1 / 10000) 1 hy1 hy2 hfy
    (fun a c ha hac hc => hmono a c ha hac hc) (by norm_num)
  refine ⟨r, ?_, hry⟩
  rw [Bond.compute_ytm, hcf]
  show root_scalar (fun x => pvSum (⟨fv, cr, mat, m⟩ : Bond) x cf - p)
    (1 / 10000) 1 (1 / 1000000) 100 = some r
  have hprod : ¬ (0 < (pvSum (⟨fv, cr, mat, m⟩ : Bond) (1 / 10000) cf - p) *
      (pvSum (⟨fv, cr, mat, m⟩ : Bond) 1 cf - p)) :=
    not_lt.mpr (le_of_lt (mul_neg_of_pos_of_neg hflo hfhi))
  rw [root_scalar, if_neg (ne_of_gt hflo), if_neg (ne_of_lt hfhi), if_neg hprod]
  exact hr

theorem compute_ytm_price_roundtrip_witness :
    ∃ r, (⟨100, 0, 1, 1⟩ : Bond).compute_ytm (200/3) (1/20) (1/1000000) 100 = some r ∧
      |r - (1/2 : ℚ)| < 1 / 1000000 :=
  compute_ytm_price_roundtrip 100 0 1 1 ⟨100, 0, 1, 1⟩ (by norm_num) le_rfl
    (by norm_num) (by norm_num [mkBond]) (by norm_num [Bond.periods, ratTrunc])
    (1/2) (by norm_num) (by norm_num) (200/3)
    (by norm_num [Bond.price, Bond.cash_flows, Bond.periods, ratTrunc, Bond.coupon,
      addToLast, List.replicate, pvSum, discountFactor, Finset.sum_range_succ])
